import Mathlib

/-!
Verification of the xlsx price-rewriting core of this repository
(`xlsx_image_preserving_processor.py`).

The xlsx file is modeled as a structured archive: a list of named parts.
Worksheet documents are modeled at the row/cell granularity at which the
rewriter operates; every other part is an opaque byte blob.  Python's
`float(text)` on cell text is modeled by `parseNum` over `PyFloat`
(finite exact rationals plus `inf`/`-inf`/`nan`), covering whitespace
stripping, signs, the case-insensitive `inf`/`infinity`/`nan` spellings
and underscore grouping; `str` is modeled by `formatNum`.  Finite values
are exact decimal rationals: every finite Python float is a dyadic —
hence decimal — rational, and for such values parse-after-format is the
identity.  Binary64 rounding, saturation of large finite sums, and the
shortest-round-trip/scientific-notation details of CPython's `repr` are
below the model's granularity.
-/

namespace Xlsx

/-! ## Decimal digit strings (model of numeric cell text) -/

/-- Value of a list of decimal digit characters, most significant first. -/
def digitsToNat (ds : List Char) : Nat :=
  ds.foldl (fun a c => 10 * a + (c.toNat - 48)) 0

/-- Split a character list into its longest digit prefix and the rest. -/
def spanDigits : List Char → List Char × List Char
  | [] => ([], [])
  | c :: cs =>
    if c.isDigit then
      let p := spanDigits cs
      (c :: p.1, p.2)
    else ([], c :: cs)

/-- Digits of an exponent: nonempty, all decimal digits. -/
def parseExpDigits (ds : List Char) : Option Int :=
  if !ds.isEmpty && ds.all Char.isDigit then some ((digitsToNat ds : Nat) : Int)
  else none

/-- Exponent part after `e`/`E`: optional sign, then digits. -/
def parseExp (cs : List Char) : Option Int :=
  match cs with
  | [] => none
  | c :: r =>
    if c = '+' then parseExpDigits r
    else if c = '-' then (parseExpDigits r).map (fun e => -e)
    else parseExpDigits (c :: r)

/-- Unsigned decimal literal: digits, optional `.` and fraction digits,
optional exponent.  Yields the exact rational value. -/
def parseUnsigned (cs : List Char) : Option ℚ :=
  let p1 := spanDigits cs
  match p1.2 with
  | [] => if p1.1.isEmpty then none else some ((digitsToNat p1.1 : ℚ))
  | c :: r2 =>
    if c = '.' then
      let p2 := spanDigits r2
      if p1.1.isEmpty && p2.1.isEmpty then none
      else
        match p2.2 with
        | [] => some ((digitsToNat p1.1 : ℚ) + (digitsToNat p2.1 : ℚ) / 10 ^ p2.1.length)
        | e :: r3 =>
          if e = 'e' ∨ e = 'E' then
            (parseExp r3).map
              (fun ex => ((digitsToNat p1.1 : ℚ) + (digitsToNat p2.1 : ℚ) / 10 ^ p2.1.length) * 10 ^ ex)
          else none
    else if c = 'e' ∨ c = 'E' then
      if p1.1.isEmpty then none
      else (parseExp r2).map (fun ex => (digitsToNat p1.1 : ℚ) * 10 ^ ex)
    else none

/-- Python float values at decimal-rational granularity: a finite value
(an exact rational — the rounding of text to the nearest binary64 double
is below this model's granularity) or one of the non-finite values
`inf`, `-inf`, `nan`, all of which `float(text)` can produce. -/
inductive PyFloat where
  | finite (val : ℚ)
  | inf
  | negInf
  | nan
deriving DecidableEq, Repr

/-- ASCII whitespace stripped by Python `float(text)`. -/
def isPySpace (c : Char) : Bool :=
  c = ' ' || c = '\t' || c = '\n' || c = '\r' || c = '\x0b' || c = '\x0c'

/-- Leading and trailing whitespace stripping performed by `float(text)`. -/
def trimWs (cs : List Char) : List Char :=
  ((cs.dropWhile isPySpace).reverse.dropWhile isPySpace).reverse

/-- ASCII lower-casing, for the case-insensitive `inf`/`nan` spellings. -/
def lowerChar (c : Char) : Char :=
  if 65 ≤ c.toNat && c.toNat ≤ 90 then Char.ofNat (c.toNat + 32) else c

/-- Underscore grouping of Python numeric literals: an underscore is legal
only directly between two digits and is dropped; any other underscore
makes the literal invalid. -/
def deUnderscore : Option Char → List Char → Option (List Char)
  | _, [] => some []
  | prev, c :: rest =>
    if c = '_' then
      match prev, rest with
      | some p, d :: _ => if p.isDigit && d.isDigit then deUnderscore prev rest else none
      | _, _ => none
    else (deUnderscore (some c) rest).map (fun l => c :: l)

/-- Body of `float(text)` after sign stripping: the case-insensitive
spellings `inf`, `infinity` and `nan`, else a decimal literal with
underscore grouping, parsed exactly. -/
def parsePyBody (cs : List Char) : Option PyFloat :=
  if cs.map lowerChar == "inf".data || cs.map lowerChar == "infinity".data then some PyFloat.inf
  else if cs.map lowerChar == "nan".data then some PyFloat.nan
  else
    match deUnderscore none cs with
    | some cleaned => (parseUnsigned cleaned).map PyFloat.finite
    | none => none

/-- Sign handling of `float(text)`: negation flips infinities and fixes
`nan`. -/
def pyNegate : PyFloat → PyFloat
  | PyFloat.finite q => PyFloat.finite (-q)
  | PyFloat.inf => PyFloat.negInf
  | PyFloat.negInf => PyFloat.inf
  | PyFloat.nan => PyFloat.nan

/-- Model of Python `float(text)`: strip surrounding whitespace, then an
optional sign followed by a case-insensitive `inf`/`infinity`/`nan` or a
decimal literal with underscores between digits.  Finite results are
exact rationals; binary64 rounding is below this model's granularity. -/
def parseNum (s : String) : Option PyFloat :=
  match trimWs s.data with
  | [] => none
  | c :: cs =>
    if c = '-' then (parsePyBody cs).map pyNegate
    else if c = '+' then parsePyBody cs
    else parsePyBody (c :: cs)

/-- Decimal digits of a natural number, most significant first.  The
`fuel` argument bounds the iteration count of the digit-extraction loop
(`n` needs at most `n + 1` iterations), keeping the definition
structurally recursive and kernel-evaluable. -/
def natDigitsGo : Nat → Nat → List Char → List Char
  | 0, _, acc => acc
  | fuel + 1, n, acc =>
    let acc' := Char.ofNat (n % 10 + 48) :: acc
    if n < 10 then acc' else natDigitsGo fuel (n / 10) acc'

/-- Decimal digits of a natural number, most significant first. -/
def natDigits (n : Nat) : List Char :=
  natDigitsGo (n + 1) n []

/-- Least `k ≤ d` with `d ∣ 10 ^ k`, when one exists: the number of
decimal places needed to write a fraction with denominator `d` exactly. -/
def findDecExp (d : Nat) : Option Nat :=
  (List.range (d + 1)).find? (fun k => 10 ^ k % d == 0)

/-- Decimal text of a finite value: the exact literal `±<int>.<frac>` of a
rational whose denominator divides a power of ten (every finite Python
float is such a rational).  The shortest-round-trip rounding and the
scientific-notation thresholds of CPython's `repr` are below this model's
granularity (the spec leaves the exact formatting implementation-pinned);
the fallback branch for non-decimal denominators never arises from parsed
floats. -/
def formatFinite (q : ℚ) : String :=
  match findDecExp q.den with
  | some k =>
    let M := q.num.natAbs * 10 ^ k / q.den
    let ip := natDigits (M / 10 ^ k)
    let fp :=
      if k = 0 then ['0']
      else List.replicate (k - (natDigits (M % 10 ^ k)).length) '0' ++ natDigits (M % 10 ^ k)
    ⟨(if q.num < 0 then ['-'] else []) ++ ip ++ '.' :: fp⟩
  | none => toString q.num ++ "/" ++ toString q.den

/-- Model of Python `str(new_price)`: the non-finite values print as
`inf`, `-inf`, `nan`; a finite value prints as its exact decimal literal. -/
def formatNum : PyFloat → String
  | PyFloat.finite q => formatFinite q
  | PyFloat.inf => "inf"
  | PyFloat.negInf => "-inf"
  | PyFloat.nan => "nan"

/-- The sum `old_price + markup` written back by the rewriter: a non-finite
old value absorbs the finite markup (`inf + m = inf`, `nan + m = nan`);
finite addition is modeled as exact rational addition — binary64 rounding
and saturation of large finite sums are below this model's granularity. -/
def pyAdd (f : PyFloat) (markup : ℚ) : PyFloat :=
  match f with
  | PyFloat.finite q => PyFloat.finite (q + markup)
  | x => x

/-- Rationals with a power-of-ten denominator, i.e. values exactly
representable as finite decimal text.  Every Python float is one. -/
def DecQ (q : ℚ) : Prop :=
  ∃ z : ℤ, ∃ k : ℕ, q = (z : ℚ) / 10 ^ k

/-! ## Column letters (`_column_number_to_letter`, lines 168-176) -/

/-- While loop of `_column_number_to_letter`:
`while column_number > 0: column_number -= 1;
result.append(chr(column_number % 26 + ord('A'))); column_number //= 26`.
`fuel` bounds the iteration count (the loop body strictly decreases the
positive counter, so `column_number.toNat` iterations always suffice);
it keeps the definition structurally recursive and kernel-evaluable. -/
def columnLetterLoop : Nat → Int → List Char → List Char
  | 0, _, result => result
  | fuel + 1, column_number, result =>
    if column_number > 0 then
      let n := column_number - 1
      columnLetterLoop fuel (n / 26) (result ++ [Char.ofNat ((n % 26).toNat + 65)])
    else result

/-- Conversion `_column_number_to_letter` (1 → "A", 2 → "B", 27 → "AA", ...):
runs the while loop, then joins the collected letters in reverse. -/
def _column_number_to_letter (column_number : Int) : String :=
  ⟨(columnLetterLoop column_number.toNat column_number []).reverse⟩

/-- Modelled from the spec: the reference inverse `letterToNumber` used
by the column-bijection property (§8); not part of the source.  Folds
`acc * 26 + (letter - 'A' + 1)` over the letters. -/
def letterToNumber (s : String) : Nat :=
  s.data.foldl (fun acc c => acc * 26 + (c.toNat - 64)) 0

/-- Proof-side description of the letter list produced by the while loop
(least-significant letter first). -/
def lettersLS (k : Nat) : List Char :=
  if h : k = 0 then []
  else Char.ofNat ((k - 1) % 26 + 65) :: lettersLS ((k - 1) / 26)
termination_by k
decreasing_by
  exact Nat.lt_of_le_of_lt (Nat.div_le_self _ _) (by omega)

/-! ## Data model: cells, rows, worksheet documents, archive parts -/

/-- One `<c>` element: reference attribute `r`, optional type attribute
`t`, optional `<v>` text (`none` models an absent `<v>` child or absent
text), and `rest` standing for every other attribute and child, which
the rewriter never touches. -/
structure Cell where
  r : Option String
  t : Option String
  v : Option String
  rest : String
deriving DecidableEq, Repr

/-- One `<row>` element: its parsed `r` attribute (`int(row.get('r', 0))`)
and its cells; `rest` stands for the row's other attributes. -/
structure Row where
  r : Int
  cells : List Cell
  rest : String
deriving DecidableEq, Repr

/-- A worksheet XML document as `_update_sheet_prices` sees it:
`malformed` (ET.parse raises), `noSheetData` (parses, but has no
`sheetData` element), or `parsed` rows plus the document's other
content `rest`. -/
inductive SheetDoc where
  | malformed (bytes : String)
  | noSheetData (bytes : String)
  | parsed (rows : List Row) (rest : String)
deriving DecidableEq, Repr

/-- Content of one internal archive member: a worksheet document or an
opaque byte blob (images, styles, shared strings, relationships, ...). -/
inductive ArchivePart where
  | blob (bytes : String)
  | sheet (d : SheetDoc)
deriving DecidableEq, Repr

/-- An input or output file: either not a valid zip archive at all, or
an archive with its named internal members. -/
inductive XlsxFile where
  | invalid (bytes : String)
  | archive (members : List (String × ArchivePart))
deriving DecidableEq, Repr

/-- Characters of the worksheet-parts directory path `xl/worksheets/`. -/
def wsDirChars : List Char := "xl/worksheets/".data

/-- Characters of the `.xml` suffix, reversed. -/
def xmlSuffixRev : List Char := ".xml".data.reverse

/-- A member is a worksheet file iff it lies directly in `xl/worksheets/`
(`os.listdir(worksheets_dir)`) and its name ends with `.xml`. -/
def isWorksheetFile (name : String) : Bool :=
  (name.data.take wsDirChars.length == wsDirChars) &&
  !((name.data.drop wsDirChars.length).contains '/') &&
  (name.data.reverse.take 4 == xmlSuffixRev)

/-- Existence test `os.path.exists(worksheets_dir)` after extraction: the
directory exists iff some member lives under `xl/worksheets/`. -/
def hasWorksheetsDir (ms : List (String × ArchivePart)) : Bool :=
  ms.any (fun m => m.1.data.take wsDirChars.length == wsDirChars)

/-! ## The rewriter (`_update_sheet_prices`, lines 96-166) -/

/-- Map a transformation returning a per-element count over a list,
summing the counts (the `updated_count`/`total_updated` accumulators). -/
def mapCount {α β : Type} (f : α → β × Nat) : List α → List β × Nat
  | [] => ([], 0)
  | x :: xs =>
    let hd := f x
    let tl := mapCount f xs
    (hd.1 :: tl.1, hd.2 + tl.2)

/-- Body of the cell loop (lines 142-158): if the cell's reference is
`cell_ref`, its type tag is absent or `"n"`, and its value text is
present, nonempty and parses as a number, replace the text with
`str(old_price + markup)` and count 1; otherwise leave the cell alone. -/
def processCell (markup : ℚ) (cell_ref : String) (cell : Cell) : Cell × Nat :=
  if cell.r = some cell_ref then
    if cell.t = none ∨ cell.t = some "n" then
      match cell.v with
      | some text =>
        if text = "" then (cell, 0)
        else
          match parseNum text with
          | some old_price => ({ cell with v := some (formatNum (pyAdd old_price markup)) }, 1)
          | none => (cell, 0)
      | none => (cell, 0)
    else (cell, 0)
  else (cell, 0)

/-- Body of the row loop (lines 133-158): rows with
`row_num <= header_row` are skipped; otherwise every cell of the row is
checked against `cell_ref = f'{column_letter}{row_num}'`. -/
def processRow (markup : ℚ) (column_letter : String) (header_row : Int) (row : Row) : Row × Nat :=
  if row.r ≤ header_row then (row, 0)
  else
    let cell_ref := column_letter ++ toString row.r
    let res := mapCount (processCell markup cell_ref) row.cells
    ({ row with cells := res.1 }, res.2)

/-- Per-sheet rewriter `_update_sheet_prices`: on a parse error return 0 and leave the file
unchanged; with no `sheetData` element return 0 before writing; else
rewrite the rows and report the count. -/
def _update_sheet_prices (sheet : SheetDoc) (markup : ℚ) (price_column : Int)
    (header_row : Int) : SheetDoc × Nat :=
  match sheet with
  | SheetDoc.malformed bytes => (SheetDoc.malformed bytes, 0)
  | SheetDoc.noSheetData bytes => (SheetDoc.noSheetData bytes, 0)
  | SheetDoc.parsed rows rest =>
    let column_letter := _column_number_to_letter price_column
    let res := mapCount (processRow markup column_letter header_row) rows
    (SheetDoc.parsed res.1 rest, res.2)

/-- One member of the extracted archive, as `update_prices_in_xlsx` sees
it: worksheet files get `_update_sheet_prices`, everything else is left
untouched.  A worksheet-named member that is an opaque blob behaves like
a malformed sheet (the per-sheet handler returns 0). -/
def processMember (markup : ℚ) (price_column header_row : Int)
    (m : String × ArchivePart) : (String × ArchivePart) × Nat :=
  if isWorksheetFile m.1 then
    match m.2 with
    | ArchivePart.sheet d =>
      let res := _update_sheet_prices d markup price_column header_row
      ((m.1, ArchivePart.sheet res.1), res.2)
    | ArchivePart.blob b => ((m.1, ArchivePart.blob b), 0)
  else (m, 0)

/-- Orchestrator `update_prices_in_xlsx` (lines 29-94).  The output file stands in
the first component.  An invalid zip makes extraction raise; the handler
copies the input to the output and returns 0.  A missing
`xl/worksheets` directory returns 0 with the initial copy (made before
extraction) as output.  Otherwise every worksheet file is rewritten and
the whole extracted tree is repacked into the output. -/
def update_prices_in_xlsx (input : XlsxFile) (markup : ℚ)
    (price_column header_row : Int) : XlsxFile × Nat :=
  match input with
  | XlsxFile.invalid bytes => (XlsxFile.invalid bytes, 0)
  | XlsxFile.archive ms =>
    if hasWorksheetsDir ms then
      let res := mapCount (processMember markup price_column header_row) ms
      (XlsxFile.archive res.1, res.2)
    else (XlsxFile.archive ms, 0)

/-- Members of an output file (`[]` for a non-archive). -/
def membersOf : XlsxFile → List (String × ArchivePart)
  | XlsxFile.invalid _ => []
  | XlsxFile.archive ms => ms

/-! ## Spec-side predicates -/

/-- Eligibility of a cell in a row numbered `row_r`: absent-or-numeric
type tag, reference equal to the target column letter followed by the
row number, row strictly below the header row, and value text that
parses as a number. -/
def eligibleB (column_letter : String) (header_row row_r : Int) (cell : Cell) : Bool :=
  ((cell.t == none || cell.t == some "n") &&
    (cell.r == some (column_letter ++ toString row_r)) &&
    (parseNum (cell.v.getD "")).isSome) &&
  decide (header_row < row_r)

/-- The rewrite applied to an eligible cell: its value text becomes
`str(old + markup)`. -/
def rewriteValue (markup : ℚ) (cell : Cell) : Cell :=
  match parseNum (cell.v.getD "") with
  | some old_price => { cell with v := some (formatNum (pyAdd old_price markup)) }
  | none => cell

/-- Number of eligible cells of one archive part (0 for blobs and for
worksheet documents that fail to parse). -/
def sheetEligibleCount (price_column header_row : Int) : ArchivePart → Nat
  | ArchivePart.sheet (SheetDoc.parsed rows _) =>
    (rows.map (fun row =>
      row.cells.countP (eligibleB (_column_number_to_letter price_column) header_row row.r))).sum
  | _ => 0

/-- Does the text parse to a FINITE value — the reading of "parses as a
finite real number" in the spec's eligibility invariant (contrast the
code, which accepts any successful `float()` parse). -/
def parsesFinite (s : String) : Bool :=
  match parseNum s with
  | some (PyFloat.finite _) => true
  | _ => false

/-- Eligibility as the spec words it, requiring a finite parse of the
value text (contrast `eligibleB`, which mirrors the code). -/
def eligibleFiniteB (column_letter : String) (header_row row_r : Int) (cell : Cell) : Bool :=
  ((cell.t == none || cell.t == some "n") &&
    (cell.r == some (column_letter ++ toString row_r)) &&
    parsesFinite (cell.v.getD "")) &&
  decide (header_row < row_r)

/-- Number of finitely-parsing eligible cells of one archive part. -/
def sheetFiniteCount (price_column header_row : Int) : ArchivePart → Nat
  | ArchivePart.sheet (SheetDoc.parsed rows _) =>
    (rows.map (fun row =>
      row.cells.countP (eligibleFiniteB (_column_number_to_letter price_column) header_row row.r))).sum
  | _ => 0

/-! ## Digit lemmas -/

theorem char_digit_toNat : ∀ r : ℕ, r < 10 → (Char.ofNat (r + 48)).toNat = r + 48 := by decide

theorem char_digit_isDigit : ∀ r : ℕ, r < 10 → (Char.ofNat (r + 48)).isDigit = true := by decide

theorem char_letter_toNat : ∀ r : ℕ, r < 26 → (Char.ofNat (r + 65)).toNat = r + 65 := by decide

theorem digitsToNat_snoc (ds : List Char) (c : Char) :
    digitsToNat (ds ++ [c]) = 10 * digitsToNat ds + (c.toNat - 48) := by
  simp [digitsToNat, List.foldl_append]

theorem digitsToNat_cons_zero (l : List Char) : digitsToNat ('0' :: l) = digitsToNat l := by
  show List.foldl _ (10 * 0 + ('0'.toNat - 48)) l = List.foldl _ 0 l
  rw [show 10 * 0 + ('0'.toNat - 48) = 0 from by decide]

theorem digitsToNat_zeros (j : ℕ) (ds : List Char) :
    digitsToNat (List.replicate j '0' ++ ds) = digitsToNat ds := by
  induction j with
  | zero => simp
  | succ j ih =>
    rw [List.replicate_succ, List.cons_append, digitsToNat_cons_zero, ih]

theorem natDigitsGo_acc (fuel : ℕ) : ∀ n acc, natDigitsGo fuel n acc = natDigitsGo fuel n [] ++ acc := by
  induction fuel with
  | zero => intro n acc; simp [natDigitsGo]
  | succ fuel ih =>
    intro n acc
    simp only [natDigitsGo]
    by_cases h : n < 10
    · simp [h]
    · simp only [h, if_false]
      rw [ih (n / 10) (Char.ofNat (n % 10 + 48) :: acc), ih (n / 10) [Char.ofNat (n % 10 + 48)]]
      simp

theorem natDigitsGo_fuel (n : ℕ) : ∀ f1 f2 acc, n < 10 ^ (f1 + 1) → n < 10 ^ (f2 + 1) →
    natDigitsGo (f1 + 1) n acc = natDigitsGo (f2 + 1) n acc := by
  induction n using Nat.strong_induction_on with
  | _ n ih =>
    intro f1 f2 acc h1 h2
    simp only [natDigitsGo]
    by_cases h : n < 10
    · simp [h]
    · simp only [h, if_false]
      obtain ⟨g1, rfl⟩ : ∃ g, f1 = g + 1 := by
        refine ⟨f1 - 1, ?_⟩
        rcases Nat.eq_zero_or_pos f1 with h0 | h0
        · subst h0; simp at h1; omega
        · omega
      obtain ⟨g2, rfl⟩ : ∃ g, f2 = g + 1 := by
        refine ⟨f2 - 1, ?_⟩
        rcases Nat.eq_zero_or_pos f2 with h0 | h0
        · subst h0; simp at h2; omega
        · omega
      refine ih (n / 10) (Nat.div_lt_self (by omega) (by omega)) g1 g2 _ ?_ ?_
      · rw [Nat.div_lt_iff_lt_mul (by omega)]
        calc n < 10 ^ (g1 + 1 + 1) := h1
        _ = 10 ^ (g1 + 1) * 10 := by ring
      · rw [Nat.div_lt_iff_lt_mul (by omega)]
        calc n < 10 ^ (g2 + 1 + 1) := h2
        _ = 10 ^ (g2 + 1) * 10 := by ring

theorem lt_ten_pow_self (x : ℕ) : x < 10 ^ (x + 1) :=
  lt_of_lt_of_le (Nat.lt_pow_self (by omega) x)
    (Nat.pow_le_pow_right (by omega) (by omega))

theorem natDigitsGo_succ (fuel n : ℕ) (acc : List Char) :
    natDigitsGo (fuel + 1) n acc =
      if n < 10 then Char.ofNat (n % 10 + 48) :: acc
      else natDigitsGo fuel (n / 10) (Char.ofNat (n % 10 + 48) :: acc) := rfl

theorem natDigits_small (n : ℕ) (h : n < 10) : natDigits n = [Char.ofNat (n % 10 + 48)] := by
  simp [natDigits, natDigitsGo, h]

theorem natDigits_step (n : ℕ) (h : 10 ≤ n) :
    natDigits n = natDigits (n / 10) ++ [Char.ofNat (n % 10 + 48)] := by
  have h10 : ¬ n < 10 := by omega
  obtain ⟨m, rfl⟩ : ∃ m, n = m + 1 := ⟨n - 1, by omega⟩
  show natDigitsGo (m + 1 + 1) (m + 1) [] = natDigitsGo ((m + 1) / 10 + 1) ((m + 1) / 10) [] ++ _
  rw [natDigitsGo_succ, if_neg h10, natDigitsGo_acc]
  congr 1
  refine natDigitsGo_fuel _ m _ _ ?_ ?_
  · exact lt_trans (Nat.div_lt_self (by omega) (by omega)) (Nat.lt_pow_self (by omega) (m + 1))
  · exact lt_ten_pow_self _

theorem natDigits_ne_nil (n : ℕ) : natDigits n ≠ [] := by
  by_cases h : n < 10
  · rw [natDigits_small n h]; simp
  · rw [natDigits_step n (by omega)]; simp

theorem natDigits_all_digits (n : ℕ) : ∀ c ∈ natDigits n, c.isDigit = true := by
  induction n using Nat.strong_induction_on with
  | _ n ih =>
    by_cases h : n < 10
    · rw [natDigits_small n h]
      intro c hc
      simp only [List.mem_singleton] at hc
      subst hc
      exact char_digit_isDigit _ (Nat.mod_lt _ (by omega))
    · rw [natDigits_step n (by omega)]
      intro c hc
      rcases List.mem_append.mp hc with h1 | h2
      · exact ih (n / 10) (Nat.div_lt_self (by omega) (by omega)) c h1
      · simp only [List.mem_singleton] at h2
        subst h2
        exact char_digit_isDigit _ (Nat.mod_lt _ (by omega))

theorem natDigits_toNat (n : ℕ) : digitsToNat (natDigits n) = n := by
  induction n using Nat.strong_induction_on with
  | _ n ih =>
    by_cases h : n < 10
    · rw [natDigits_small n h]
      show 10 * 0 + ((Char.ofNat (n % 10 + 48)).toNat - 48) = n
      rw [char_digit_toNat _ (Nat.mod_lt _ (by omega))]
      omega
    · rw [natDigits_step n (by omega), digitsToNat_snoc,
        ih (n / 10) (Nat.div_lt_self (by omega) (by omega)),
        char_digit_toNat _ (Nat.mod_lt _ (by omega))]
      omega

theorem natDigits_length_le (n : ℕ) : ∀ k, 0 < k → n < 10 ^ k → (natDigits n).length ≤ k := by
  induction n using Nat.strong_induction_on with
  | _ n ih =>
    intro k hk hn
    by_cases h : n < 10
    · rw [natDigits_small n h]; simpa using hk
    · rw [natDigits_step n (by omega)]
      have hk2 : 2 ≤ k := by
        rcases Nat.lt_or_ge k 2 with h2 | h2
        · have hk1 : k = 1 := by omega
          subst hk1
          rw [pow_one] at hn
          omega
        · exact h2
      have hd : n / 10 < 10 ^ (k - 1) := by
        rw [Nat.div_lt_iff_lt_mul (by omega)]
        calc n < 10 ^ k := hn
        _ = 10 ^ (k - 1) * 10 := by
          rw [← pow_succ]
          congr 1
          omega
      have := ih (n / 10) (Nat.div_lt_self (by omega) (by omega)) (k - 1) (by omega) hd
      simp only [List.length_append, List.length_singleton]
      omega

/-! ## Span and parse lemmas -/

theorem spanDigits_all (ds : List Char) (h : ∀ c ∈ ds, c.isDigit = true) :
    ∀ rest, (rest = [] ∨ ∃ c cs, rest = c :: cs ∧ c.isDigit = false) →
    spanDigits (ds ++ rest) = (ds, rest) := by
  induction ds with
  | nil =>
    intro rest hr
    rcases hr with rfl | ⟨c, cs, rfl, hc⟩
    · rfl
    · simp [spanDigits, hc]
  | cons d ds ih =>
    intro rest hr
    have hd : d.isDigit = true := h d (by simp)
    have htl := ih (fun c hc => h c (by simp [hc])) rest hr
    simp only [List.cons_append, spanDigits, hd, if_true, List.append_eq, htl]

theorem parseUnsigned_decimal (ip fp : List Char) (hip : ip ≠ [])
    (hipd : ∀ c ∈ ip, c.isDigit = true) (hfpd : ∀ c ∈ fp, c.isDigit = true) :
    parseUnsigned (ip ++ '.' :: fp) =
      some ((digitsToNat ip : ℚ) + (digitsToNat fp : ℚ) / 10 ^ fp.length) := by
  have h1 : spanDigits (ip ++ '.' :: fp) = (ip, '.' :: fp) :=
    spanDigits_all ip hipd _ (Or.inr ⟨'.', fp, rfl, by decide⟩)
  have h2 : spanDigits fp = (fp, []) := by
    have := spanDigits_all fp hfpd [] (Or.inl rfl)
    simpa using this
  have hipe : ip.isEmpty = false := by
    cases ip with
    | nil => exact absurd rfl hip
    | cons a l => rfl
  simp only [parseUnsigned, h1, h2, hipe]
  simp

/-! ## Decimal exponents and denominators -/

theorem findDecExp_spec (d k : ℕ) (h : findDecExp d = some k) : 10 ^ k % d = 0 := by
  have := List.find?_some h
  simpa using this

theorem dvd_ten_pow_self (d : ℕ) : 0 < d → ∀ j, d ∣ 10 ^ j → d ∣ 10 ^ d := by
  induction d using Nat.strong_induction_on with
  | _ d ih =>
    intro hd j hj
    rcases Nat.lt_or_ge d 2 with h2 | h2
    · have h1 : d = 1 := by omega
      subst h1
      simp
    · obtain ⟨p, hpp, hpd⟩ : ∃ p, p.Prime ∧ p ∣ d :=
        ⟨d.minFac, Nat.minFac_prime (by omega), Nat.minFac_dvd d⟩
      have hp10 : p ∣ 10 := hpp.dvd_of_dvd_pow (hpd.trans hj)
      obtain ⟨d1, hd1⟩ := hpd
      have hd1pos : 0 < d1 := by
        rcases Nat.eq_zero_or_pos d1 with h0 | h0
        · subst h0; omega
        · exact h0
      have hple : 2 ≤ p := hpp.two_le
      have hd1lt : d1 < d := by
        calc d1 < 2 * d1 := by omega
        _ ≤ p * d1 := Nat.mul_le_mul_right d1 hple
        _ = d := hd1.symm
      have hd1d : d1 ∣ d := by
        rw [hd1]
        exact dvd_mul_left d1 p
      have ihd : d1 ∣ 10 ^ d1 := ih d1 hd1lt hd1pos j (hd1d.trans hj)
      have hstep : d ∣ 10 ^ (d1 + 1) := by
        rw [hd1, pow_succ, mul_comm (10 ^ d1) 10]
        exact mul_dvd_mul hp10 ihd
      exact hstep.trans (pow_dvd_pow 10 (by omega))

theorem findDecExp_isSome (d : ℕ) (hd : 0 < d) (j : ℕ) (hj : d ∣ 10 ^ j) :
    ∃ k, findDecExp d = some k := by
  rcases hfk : findDecExp d with _ | k
  · exfalso
    have hmem : d ∈ List.range (d + 1) := List.mem_range.mpr (by omega)
    have := List.find?_eq_none.mp hfk d hmem
    apply this
    obtain ⟨c, hc⟩ : d ∣ 10 ^ d := dvd_ten_pow_self d hd j hj
    simp only [beq_iff_eq]
    rw [hc, Nat.mul_mod_right]
  · exact ⟨k, rfl⟩

/-! ## Decimal rationals -/

theorem DecQ_natCast (n : ℕ) : DecQ (n : ℚ) := ⟨n, 0, by norm_num⟩

theorem DecQ_neg (q : ℚ) (h : DecQ q) : DecQ (-q) := by
  obtain ⟨z, k, rfl⟩ := h
  exact ⟨-z, k, by push_cast; ring⟩

theorem DecQ_add (a b : ℚ) (ha : DecQ a) (hb : DecQ b) : DecQ (a + b) := by
  obtain ⟨z1, k1, rfl⟩ := ha
  obtain ⟨z2, k2, rfl⟩ := hb
  refine ⟨z1 * 10 ^ k2 + z2 * 10 ^ k1, k1 + k2, ?_⟩
  have h1 : ((10 : ℚ)) ^ k1 ≠ 0 := by positivity
  have h2 : ((10 : ℚ)) ^ k2 ≠ 0 := by positivity
  rw [div_add_div _ _ h1 h2, pow_add]
  congr 1
  push_cast
  ring

theorem DecQ_natCast_div_pow (n : ℕ) (k : ℕ) : DecQ ((n : ℚ) / 10 ^ k) :=
  ⟨n, k, by push_cast; ring⟩

theorem DecQ_mul_zpow (q : ℚ) (e : ℤ) (h : DecQ q) : DecQ (q * 10 ^ e) := by
  obtain ⟨z, k, rfl⟩ := h
  cases e with
  | ofNat m =>
    refine ⟨z * 10 ^ m, k, ?_⟩
    rw [show ((Int.ofNat m : ℤ)) = (m : ℤ) from rfl, zpow_natCast]
    push_cast
    ring
  | negSucc m =>
    refine ⟨z, k + (m + 1), ?_⟩
    rw [zpow_negSucc, ← div_eq_mul_inv, div_div, ← pow_add]

theorem parseUnsigned_DecQ (cs : List Char) (q : ℚ) (h : parseUnsigned cs = some q) : DecQ q := by
  simp only [parseUnsigned] at h
  split at h
  · split at h
    · exact absurd h (by simp)
    · obtain rfl : _ = q := Option.some.inj h
      exact DecQ_natCast _
  · split at h
    · split at h
      · exact absurd h (by simp)
      · split at h
        · obtain rfl : _ = q := Option.some.inj h
          exact DecQ_add _ _ (DecQ_natCast _) (DecQ_natCast_div_pow _ _)
        · split at h
          · obtain ⟨ex, hex, rfl⟩ := Option.map_eq_some'.mp h
            exact DecQ_mul_zpow _ _ (DecQ_add _ _ (DecQ_natCast _) (DecQ_natCast_div_pow _ _))
          · exact absurd h (by simp)
    · split at h
      · split at h
        · exact absurd h (by simp)
        · obtain ⟨ex, hex, rfl⟩ := Option.map_eq_some'.mp h
          exact DecQ_mul_zpow _ _ (DecQ_natCast _)
      · exact absurd h (by simp)

theorem DecQ_den_dvd (q : ℚ) (h : DecQ q) : ∃ j, q.den ∣ 10 ^ j := by
  obtain ⟨z, k, hq⟩ := h
  refine ⟨k, ?_⟩
  have h1 : q = Rat.divInt z (10 ^ k) := by
    rw [Rat.divInt_eq_div, hq]
    push_cast
    ring
  have h2 := Rat.den_dvd z (10 ^ k)
  rw [← h1] at h2
  have h3 : (q.den : ℤ) ∣ ((10 ^ k : ℕ) : ℤ) := by
    push_cast
    exact h2
  exact_mod_cast h3

/-! ## Parse of formatted decimals (round trip) -/

theorem digit_not_sign (c : Char) (h : c.isDigit = true) : ¬ c = '-' ∧ ¬ c = '+' := by
  constructor
  · intro e
    subst e
    exact absurd h (by decide)
  · intro e
    subst e
    exact absurd h (by decide)

theorem parseNum_empty : parseNum "" = none := rfl

theorem charListBeq_cons (x y : Char) (xs ys : List Char) :
    ((x :: xs : List Char) == (y :: ys)) = ((x == y) && (xs == ys)) := rfl

theorem dropWhile_all_false (p : Char → Bool) (cs : List Char)
    (h : ∀ c ∈ cs, p c = false) : cs.dropWhile p = cs := by
  cases cs with
  | nil => rfl
  | cons c rest => simp [List.dropWhile_cons, h c (List.mem_cons_self c rest)]

theorem trimWs_eq_self (cs : List Char) (h : ∀ c ∈ cs, isPySpace c = false) :
    trimWs cs = cs := by
  unfold trimWs
  rw [dropWhile_all_false _ _ h,
    dropWhile_all_false _ _ (fun c hc => h c (List.mem_reverse.mp hc)),
    List.reverse_reverse]

theorem deUnderscore_no_us (cs : List Char) : ∀ (prev : Option Char),
    (∀ c ∈ cs, ¬ c = '_') → deUnderscore prev cs = some cs := by
  induction cs with
  | nil => intro prev _; rfl
  | cons c rest ih =>
    intro prev h
    simp only [deUnderscore]
    rw [if_neg (h c (List.mem_cons_self c rest))]
    rw [ih (some c) (fun x hx => h x (List.mem_cons_of_mem c hx))]
    rfl

theorem parseNum_eq_body (s : String) (c : Char) (cs : List Char)
    (ht : trimWs s.data = c :: cs) :
    parseNum s =
      (if c = '-' then (parsePyBody cs).map pyNegate
        else if c = '+' then parsePyBody cs
        else parsePyBody (c :: cs)) := by
  unfold parseNum
  rw [ht]

theorem parsePyBody_noMatch (c : Char) (cs : List Char)
    (hi : (lowerChar c == 'i') = false) (hn : (lowerChar c == 'n') = false)
    (hu : ∀ x ∈ c :: cs, ¬ x = '_') :
    parsePyBody (c :: cs) = (parseUnsigned (c :: cs)).map PyFloat.finite := by
  unfold parsePyBody
  have h1 : ((c :: cs).map lowerChar == "inf".data) = false := by
    rw [List.map_cons, show "inf".data = 'i' :: ['n', 'f'] from rfl, charListBeq_cons, hi,
      Bool.false_and]
  have h2 : ((c :: cs).map lowerChar == "infinity".data) = false := by
    rw [List.map_cons, show "infinity".data = 'i' :: ['n', 'f', 'i', 'n', 'i', 't', 'y'] from rfl,
      charListBeq_cons, hi, Bool.false_and]
  have h3 : ((c :: cs).map lowerChar == "nan".data) = false := by
    rw [List.map_cons, show "nan".data = 'n' :: ['a', 'n'] from rfl, charListBeq_cons, hn,
      Bool.false_and]
  rw [if_neg (by rw [h1, h2]; simp), if_neg (by rw [h3]; simp)]
  rw [deUnderscore_no_us (c :: cs) none hu]

theorem char_digit_props : ∀ r : ℕ, r < 10 →
    (isPySpace (Char.ofNat (r + 48)) = false ∧ ¬ Char.ofNat (r + 48) = '_' ∧
      lowerChar (Char.ofNat (r + 48)) = Char.ofNat (r + 48) ∧
      ((Char.ofNat (r + 48)) == 'i') = false ∧ ((Char.ofNat (r + 48)) == 'n') = false) := by
  decide

theorem natDigits_mem_form (n : ℕ) : ∀ c ∈ natDigits n, ∃ r, r < 10 ∧ c = Char.ofNat (r + 48) := by
  induction n using Nat.strong_induction_on with
  | _ n ih =>
    by_cases h : n < 10
    · rw [natDigits_small n h]
      intro c hc
      simp only [List.mem_singleton] at hc
      subst hc
      exact ⟨n % 10, Nat.mod_lt _ (by omega), rfl⟩
    · rw [natDigits_step n (by omega)]
      intro c hc
      rcases List.mem_append.mp hc with h1 | h2
      · exact ih (n / 10) (Nat.div_lt_self (by omega) (by omega)) c h1
      · simp only [List.mem_singleton] at h2
        subst h2
        exact ⟨n % 10, Nat.mod_lt _ (by omega), rfl⟩

theorem formatNum_parse (q : ℚ) (hq : DecQ q) :
    parseNum (formatNum (PyFloat.finite q)) = some (PyFloat.finite q) := by
  show parseNum (formatFinite q) = some (PyFloat.finite q)
  obtain ⟨j, hj⟩ := DecQ_den_dvd q hq
  obtain ⟨k, hk⟩ := findDecExp_isSome q.den (Rat.den_pos q) j hj
  have hdvd : q.den ∣ 10 ^ k := Nat.dvd_of_mod_eq_zero (findDecExp_spec _ _ hk)
  have hdpos : 0 < q.den := Rat.den_pos q
  have hdq : ((q.den : ℚ)) ≠ 0 := Nat.cast_ne_zero.mpr (by omega)
  have h10k : ((10 : ℚ)) ^ k ≠ 0 := by positivity
  have hMexact : q.num.natAbs * 10 ^ k / q.den * q.den = q.num.natAbs * 10 ^ k :=
    Nat.div_mul_cancel (hdvd.mul_left _)
  have habsq : |q| = (q.num.natAbs : ℚ) / q.den := by
    conv_lhs => rw [← Rat.num_div_den q]
    rw [abs_div, Int.cast_natAbs, abs_of_nonneg ((Nat.cast_nonneg q.den : (0:ℚ) ≤ q.den)),
      Int.cast_abs]
  have hMq : ((q.num.natAbs * 10 ^ k / q.den : ℕ) : ℚ) = |q| * 10 ^ k := by
    rw [habsq, div_mul_eq_mul_div, eq_div_iff hdq]
    exact_mod_cast hMexact
  have hfp_digits : ∀ c ∈ (if k = 0 then ['0']
      else List.replicate (k - (natDigits (q.num.natAbs * 10 ^ k / q.den % 10 ^ k)).length) '0' ++
        natDigits (q.num.natAbs * 10 ^ k / q.den % 10 ^ k)), c.isDigit = true := by
    intro c hc
    by_cases hk0 : k = 0
    · rw [if_pos hk0] at hc
      simp only [List.mem_singleton] at hc
      subst hc
      decide
    · rw [if_neg hk0] at hc
      rcases List.mem_append.mp hc with h1 | h2
      · have := List.eq_of_mem_replicate h1
        subst this
        decide
      · exact natDigits_all_digits _ c h2
  have hfp_val : (digitsToNat (if k = 0 then ['0']
      else List.replicate (k - (natDigits (q.num.natAbs * 10 ^ k / q.den % 10 ^ k)).length) '0' ++
        natDigits (q.num.natAbs * 10 ^ k / q.den % 10 ^ k)) : ℚ) /
      10 ^ (List.length (if k = 0 then ['0']
      else List.replicate (k - (natDigits (q.num.natAbs * 10 ^ k / q.den % 10 ^ k)).length) '0' ++
        natDigits (q.num.natAbs * 10 ^ k / q.den % 10 ^ k)))
      = ((q.num.natAbs * 10 ^ k / q.den % 10 ^ k : ℕ) : ℚ) / 10 ^ k := by
    by_cases hk0 : k = 0
    · rw [if_pos hk0]
      subst hk0
      rw [show digitsToNat ['0'] = 0 from by decide]
      simp [Nat.mod_one]
    · rw [if_neg hk0]
      have hlen : (natDigits (q.num.natAbs * 10 ^ k / q.den % 10 ^ k)).length ≤ k :=
        natDigits_length_le _ k (by omega) (Nat.mod_lt _ (by positivity))
      rw [digitsToNat_zeros, natDigits_toNat]
      congr 2
      simp only [List.length_append, List.length_replicate]
      omega
  have hcore : parseUnsigned (natDigits (q.num.natAbs * 10 ^ k / q.den / 10 ^ k) ++ '.' ::
      (if k = 0 then ['0']
      else List.replicate (k - (natDigits (q.num.natAbs * 10 ^ k / q.den % 10 ^ k)).length) '0' ++
        natDigits (q.num.natAbs * 10 ^ k / q.den % 10 ^ k)))
      = some (((q.num.natAbs * 10 ^ k / q.den : ℕ) : ℚ) / 10 ^ k) := by
    rw [parseUnsigned_decimal _ _ (natDigits_ne_nil _) (natDigits_all_digits _) hfp_digits]
    rw [natDigits_toNat, hfp_val]
    congr 1
    have hdm : q.num.natAbs * 10 ^ k / q.den / 10 ^ k * 10 ^ k +
        q.num.natAbs * 10 ^ k / q.den % 10 ^ k = q.num.natAbs * 10 ^ k / q.den := by
      rw [mul_comm]
      exact Nat.div_add_mod _ _
    rw [eq_div_iff h10k, add_mul, div_mul_cancel₀ _ h10k]
    exact_mod_cast hdm
  have hdivq : ((q.num.natAbs * 10 ^ k / q.den : ℕ) : ℚ) / 10 ^ k = |q| := by
    rw [hMq, mul_div_cancel_right₀ _ h10k]
  have hmem_props : ∀ x ∈ (natDigits (q.num.natAbs * 10 ^ k / q.den / 10 ^ k) ++ '.' ::
      (if k = 0 then ['0']
      else List.replicate (k - (natDigits (q.num.natAbs * 10 ^ k / q.den % 10 ^ k)).length) '0' ++
        natDigits (q.num.natAbs * 10 ^ k / q.den % 10 ^ k))),
      isPySpace x = false ∧ ¬ x = '_' := by
    intro x hx
    rcases List.mem_append.mp hx with h1 | h2
    · obtain ⟨r, hr, hxeq⟩ := natDigits_mem_form _ x h1
      subst hxeq
      obtain ⟨p1, p2, _, _, _⟩ := char_digit_props r hr
      exact ⟨p1, p2⟩
    · rcases List.mem_cons.mp h2 with hxeq | h3
      · subst hxeq
        exact ⟨by decide, by decide⟩
      · by_cases hk0 : k = 0
        · rw [if_pos hk0] at h3
          simp only [List.mem_singleton] at h3
          subst h3
          exact ⟨by decide, by decide⟩
        · rw [if_neg hk0] at h3
          rcases List.mem_append.mp h3 with h4 | h5
          · have := List.eq_of_mem_replicate h4
            subst this
            exact ⟨by decide, by decide⟩
          · obtain ⟨r, hr, hxeq⟩ := natDigits_mem_form _ x h5
            subst hxeq
            obtain ⟨p1, p2, _, _, _⟩ := char_digit_props r hr
            exact ⟨p1, p2⟩
  obtain ⟨c, ip1, hip⟩ : ∃ c l, natDigits (q.num.natAbs * 10 ^ k / q.den / 10 ^ k) = c :: l := by
    cases hnd : natDigits (q.num.natAbs * 10 ^ k / q.den / 10 ^ k) with
    | nil => exact absurd hnd (natDigits_ne_nil _)
    | cons a l => exact ⟨a, l, rfl⟩
  obtain ⟨r0, hr0, hceq⟩ := natDigits_mem_form _ c (by rw [hip]; exact List.mem_cons_self c ip1)
  obtain ⟨c0sp, c0us, c0low, c0i, c0n⟩ := char_digit_props r0 hr0
  have hcdig : c.isDigit = true := by
    rw [hceq]
    exact char_digit_isDigit r0 hr0
  obtain ⟨hc1, hc2⟩ := digit_not_sign c hcdig
  have hlow_i : (lowerChar c == 'i') = false := by
    rw [hceq, c0low]
    exact c0i
  have hlow_n : (lowerChar c == 'n') = false := by
    rw [hceq, c0low]
    exact c0n
  have hnous : ∀ x ∈ c :: (ip1 ++ '.' ::
      (if k = 0 then ['0']
      else List.replicate (k - (natDigits (q.num.natAbs * 10 ^ k / q.den % 10 ^ k)).length) '0' ++
        natDigits (q.num.natAbs * 10 ^ k / q.den % 10 ^ k))), ¬ x = '_' := by
    intro x hx
    rw [← List.cons_append, ← hip] at hx
    exact (hmem_props x hx).2
  have hcore2 : parsePyBody (c :: (ip1 ++ '.' ::
      (if k = 0 then ['0']
      else List.replicate (k - (natDigits (q.num.natAbs * 10 ^ k / q.den % 10 ^ k)).length) '0' ++
        natDigits (q.num.natAbs * 10 ^ k / q.den % 10 ^ k))))
      = some (PyFloat.finite (((q.num.natAbs * 10 ^ k / q.den : ℕ) : ℚ) / 10 ^ k)) := by
    rw [parsePyBody_noMatch c _ hlow_i hlow_n hnous, ← List.cons_append, ← hip, hcore]
    rfl
  by_cases hneg : q.num < 0
  · have hstr : formatFinite q = ⟨'-' :: (natDigits (q.num.natAbs * 10 ^ k / q.den / 10 ^ k) ++ '.' ::
        (if k = 0 then ['0']
        else List.replicate (k - (natDigits (q.num.natAbs * 10 ^ k / q.den % 10 ^ k)).length) '0' ++
          natDigits (q.num.natAbs * 10 ^ k / q.den % 10 ^ k)))⟩ := by
      simp only [formatFinite, hk, if_pos hneg, List.singleton_append, List.cons_append,
        List.nil_append]
    have hqneg : q < 0 := by
      by_contra hge
      push_neg at hge
      exact absurd (Rat.num_nonneg.mpr hge) (by omega)
    have hsp_all : ∀ x ∈ ('-' :: (natDigits (q.num.natAbs * 10 ^ k / q.den / 10 ^ k) ++ '.' ::
        (if k = 0 then ['0']
        else List.replicate (k - (natDigits (q.num.natAbs * 10 ^ k / q.den % 10 ^ k)).length) '0' ++
          natDigits (q.num.natAbs * 10 ^ k / q.den % 10 ^ k)))), isPySpace x = false := by
      intro x hx
      rcases List.mem_cons.mp hx with hxeq | h2
      · subst hxeq
        decide
      · exact (hmem_props x h2).1
    rw [hstr, parseNum_eq_body _ '-' _ (trimWs_eq_self _ hsp_all),
      if_pos (show ('-' : Char) = '-' from rfl), hip, List.cons_append, hcore2,
      Option.map_some']
    show some (PyFloat.finite (-(((q.num.natAbs * 10 ^ k / q.den : ℕ) : ℚ) / 10 ^ k))) = _
    rw [hdivq, abs_of_neg hqneg, neg_neg]
  · have hstr : formatFinite q = ⟨natDigits (q.num.natAbs * 10 ^ k / q.den / 10 ^ k) ++ '.' ::
        (if k = 0 then ['0']
        else List.replicate (k - (natDigits (q.num.natAbs * 10 ^ k / q.den % 10 ^ k)).length) '0' ++
          natDigits (q.num.natAbs * 10 ^ k / q.den % 10 ^ k))⟩ := by
      simp only [formatFinite, hk, if_neg hneg, List.nil_append, List.cons_append]
    have hqpos : 0 ≤ q := Rat.num_nonneg.mp (by omega)
    have ht2 : trimWs (natDigits (q.num.natAbs * 10 ^ k / q.den / 10 ^ k) ++ '.' ::
        (if k = 0 then ['0']
        else List.replicate (k - (natDigits (q.num.natAbs * 10 ^ k / q.den % 10 ^ k)).length) '0' ++
          natDigits (q.num.natAbs * 10 ^ k / q.den % 10 ^ k)))
        = c :: (ip1 ++ '.' ::
        (if k = 0 then ['0']
        else List.replicate (k - (natDigits (q.num.natAbs * 10 ^ k / q.den % 10 ^ k)).length) '0' ++
          natDigits (q.num.natAbs * 10 ^ k / q.den % 10 ^ k))) := by
      rw [trimWs_eq_self _ (fun x hx => (hmem_props x hx).1), hip, List.cons_append]
    rw [hstr, parseNum_eq_body _ c _ ht2, if_neg hc1, if_neg hc2, hcore2, hdivq,
      abs_of_nonneg hqpos]

/-! ## Column letter lemmas -/

theorem columnLetterLoop_acc (fuel : ℕ) : ∀ (n : Int) (acc : List Char),
    columnLetterLoop fuel n acc = acc ++ columnLetterLoop fuel n [] := by
  induction fuel with
  | zero => intro n acc; simp [columnLetterLoop]
  | succ fuel ih =>
    intro n acc
    by_cases h : n > 0
    · simp only [columnLetterLoop, h, if_true]
      rw [ih ((n - 1) / 26) (acc ++ [Char.ofNat (((n - 1) % 26).toNat + 65)]),
        ih ((n - 1) / 26) ([] ++ [Char.ofNat (((n - 1) % 26).toNat + 65)])]
      simp
    · simp [columnLetterLoop, h]

theorem columnLetterLoop_spec (k : ℕ) : ∀ fuel, k ≤ fuel → ∀ acc,
    columnLetterLoop fuel (k : Int) acc = acc ++ lettersLS k := by
  induction k using Nat.strong_induction_on with
  | _ k ih =>
    intro fuel hf acc
    rcases k with _ | j
    · cases fuel with
      | zero => simp [columnLetterLoop, lettersLS]
      | succ f => simp [columnLetterLoop, lettersLS]
    · rcases fuel with _ | f
      · omega
      · have hpos : ((j + 1 : ℕ) : Int) > 0 := by exact_mod_cast Nat.succ_pos j
        simp only [columnLetterLoop, hpos, if_true]
        have h1 : ((j + 1 : ℕ) : Int) - 1 = ((j : ℕ) : Int) := by push_cast; ring
        rw [h1]
        have h2 : ((j : ℕ) : Int) / 26 = ((j / 26 : ℕ) : Int) := by omega
        have h3 : (((j : ℕ) : Int) % 26).toNat = j % 26 := by omega
        rw [h2, h3]
        rw [ih (j / 26) (by omega) f (by omega) (acc ++ [Char.ofNat (j % 26 + 65)])]
        conv_rhs => rw [lettersLS]
        rw [dif_neg (Nat.succ_ne_zero j)]
        have h4 : j + 1 - 1 = j := rfl
        rw [h4]
        simp

theorem colLetter_natCast (k : ℕ) : _column_number_to_letter (k : Int) = ⟨(lettersLS k).reverse⟩ := by
  unfold _column_number_to_letter
  rw [show ((k : ℤ)).toNat = k from by omega]
  rw [columnLetterLoop_spec k k le_rfl []]
  rfl

theorem letterFold_lettersLS (k : ℕ) :
    ((lettersLS k).reverse).foldl (fun acc c => acc * 26 + (c.toNat - 64)) 0 = k := by
  induction k using Nat.strong_induction_on with
  | _ k ih =>
    rcases k with _ | j
    · simp [lettersLS]
    · rw [lettersLS, dif_neg (Nat.succ_ne_zero j)]
      have h4 : j + 1 - 1 = j := rfl
      rw [h4, List.reverse_cons, List.foldl_append,
        ih (j / 26) (Nat.lt_succ_of_le (Nat.div_le_self j 26))]
      show (j / 26) * 26 + ((Char.ofNat (j % 26 + 65)).toNat - 64) = j + 1
      rw [char_letter_toNat (j % 26) (Nat.mod_lt j (by omega))]
      omega

theorem letter_roundtrip (k : ℕ) : letterToNumber (_column_number_to_letter (k : Int)) = k := by
  rw [colLetter_natCast]
  exact letterFold_lettersLS k

theorem colLetter_nonpos (n : Int) (h : n ≤ 0) : _column_number_to_letter n = "" := by
  unfold _column_number_to_letter
  rw [show n.toNat = 0 from by omega]
  rfl

/-! ## Rewriter characterization -/

theorem processCell_eq (markup : ℚ) (cr : String) (c : Cell) :
    processCell markup cr c =
      if (c.t == none || c.t == some "n") && (c.r == some cr) &&
          (parseNum (c.v.getD "")).isSome
      then (rewriteValue markup c, 1) else (c, 0) := by
  unfold processCell rewriteValue
  by_cases hr : c.r = some cr
  · have hrb : (c.r == some cr) = true := by simp [hr]
    by_cases ht : c.t = none ∨ c.t = some "n"
    · rw [if_pos hr, if_pos ht]
      have htb : (c.t == none || c.t == some "n") = true := by
        rcases ht with h | h <;> simp [h]
      cases hv : c.v with
      | none => simp [htb, hrb, hv, parseNum_empty]
      | some s =>
        by_cases hs : s = ""
        · subst hs
          simp [htb, hrb, hv, parseNum_empty]
        · cases hp : parseNum s with
          | none => simp [htb, hrb, hv, hs, hp]
          | some oldp => simp [htb, hrb, hv, hs, hp]
    · rw [if_pos hr, if_neg ht]
      push_neg at ht
      have htb : (c.t == none || c.t == some "n") = false := by
        simp [ht.1, ht.2]
      simp [htb]
  · rw [if_neg hr]
    have hrb : (c.r == some cr) = false := by simp [hr]
    simp [hrb]

theorem processCell_fst (markup : ℚ) (cr : String) (c : Cell) :
    (processCell markup cr c).1 =
      if (c.t == none || c.t == some "n") && (c.r == some cr) &&
          (parseNum (c.v.getD "")).isSome
      then rewriteValue markup c else c := by
  rw [processCell_eq]
  by_cases h : ((c.t == none || c.t == some "n") && (c.r == some cr) &&
      (parseNum (c.v.getD "")).isSome) = true <;> simp [h]

theorem processCell_snd (markup : ℚ) (cr : String) (c : Cell) :
    (processCell markup cr c).2 =
      if (c.t == none || c.t == some "n") && (c.r == some cr) &&
          (parseNum (c.v.getD "")).isSome
      then 1 else 0 := by
  rw [processCell_eq]
  by_cases h : ((c.t == none || c.t == some "n") && (c.r == some cr) &&
      (parseNum (c.v.getD "")).isSome) = true <;> simp [h]

theorem mapCount_eq {α β : Type} (f : α → β × Nat) (l : List α) :
    mapCount f l = (l.map (fun a => (f a).1), (l.map (fun a => (f a).2)).sum) := by
  induction l with
  | nil => rfl
  | cons x xs ih => simp [mapCount, ih]

theorem sum_map_ite_one {α : Type} (p : α → Bool) (l : List α) :
    (l.map (fun a => if p a then 1 else 0)).sum = l.countP p := by
  induction l with
  | nil => rfl
  | cons x xs ih =>
    rw [List.map_cons, List.sum_cons, List.countP_cons, ih]
    by_cases h : p x = true
    · simp [h]
      omega
    · simp [h]

theorem processRow_eq (markup : ℚ) (cl : String) (hr : Int) (row : Row) :
    processRow markup cl hr row =
      ({ row with cells := row.cells.map (fun c => if eligibleB cl hr row.r c then rewriteValue markup c else c) },
        row.cells.countP (fun c => eligibleB cl hr row.r c)) := by
  by_cases h : row.r ≤ hr
  · have hd : decide (hr < row.r) = false := by
      simp only [decide_eq_false_iff_not]
      omega
    have helig : ∀ c, eligibleB cl hr row.r c = false := by
      intro c
      unfold eligibleB
      rw [hd, Bool.and_false]
    unfold processRow
    rw [if_pos h]
    have hmap : row.cells.map
        (fun c => if eligibleB cl hr row.r c then rewriteValue markup c else c) = row.cells := by
      have hpt : ∀ c ∈ row.cells,
          (if eligibleB cl hr row.r c then rewriteValue markup c else c) = c := by
        intro c _
        rw [helig c]
        simp
      rw [List.map_congr_left hpt, List.map_id']
    have hcnt : row.cells.countP (fun c => eligibleB cl hr row.r c) = 0 := by
      refine List.countP_eq_zero.mpr ?_
      intro c _
      simp [helig c]
    rw [hmap, hcnt]
  · have hd : decide (hr < row.r) = true := by
      simp only [decide_eq_true_eq]
      omega
    have helig : ∀ c, eligibleB cl hr row.r c =
        ((c.t == none || c.t == some "n") && (c.r == some (cl ++ toString row.r)) &&
          (parseNum (c.v.getD "")).isSome) := by
      intro c
      unfold eligibleB
      rw [hd, Bool.and_true]
    unfold processRow
    rw [if_neg h]
    simp only [mapCount_eq]
    have hfst : row.cells.map (fun c => (processCell markup (cl ++ toString row.r) c).1) =
        row.cells.map (fun c => if eligibleB cl hr row.r c then rewriteValue markup c else c) := by
      refine List.map_congr_left ?_
      intro c _
      rw [processCell_fst, ← helig c]
    have hsnd : (row.cells.map (fun c => (processCell markup (cl ++ toString row.r) c).2)).sum =
        row.cells.countP (fun c => eligibleB cl hr row.r c) := by
      have hpt : row.cells.map (fun c => (processCell markup (cl ++ toString row.r) c).2) =
          row.cells.map (fun c => if eligibleB cl hr row.r c then 1 else 0) := by
        refine List.map_congr_left ?_
        intro c _
        rw [processCell_snd, ← helig c]
      rw [hpt, sum_map_ite_one]
    rw [hfst, hsnd]

theorem update_sheet_parsed_eq (markup : ℚ) (pc hr : Int) (rows : List Row) (rest : String) :
    _update_sheet_prices (SheetDoc.parsed rows rest) markup pc hr =
      (SheetDoc.parsed (rows.map (fun row => { row with cells := row.cells.map (fun c => if eligibleB (_column_number_to_letter pc) hr row.r c then rewriteValue markup c else c) })) rest,
        (rows.map (fun row => row.cells.countP (fun c => eligibleB (_column_number_to_letter pc) hr row.r c))).sum) := by
  unfold _update_sheet_prices
  simp only [mapCount_eq]
  have h1 : rows.map (fun row => (processRow markup (_column_number_to_letter pc) hr row).1) =
      rows.map (fun row => { row with cells := row.cells.map (fun c => if eligibleB (_column_number_to_letter pc) hr row.r c then rewriteValue markup c else c) }) :=
    List.map_congr_left (fun row _ => by rw [processRow_eq])
  have h2 : rows.map (fun row => (processRow markup (_column_number_to_letter pc) hr row).2) =
      rows.map (fun row => row.cells.countP (fun c => eligibleB (_column_number_to_letter pc) hr row.r c)) :=
    List.map_congr_left (fun row _ => by rw [processRow_eq])
  rw [h1, h2]

theorem processMember_fst_name (markup : ℚ) (pc hr : Int) (m : String × ArchivePart) :
    (processMember markup pc hr m).1.1 = m.1 := by
  obtain ⟨name, p⟩ := m
  cases p with
  | blob b =>
    by_cases h : isWorksheetFile name = true
    · simp [processMember, h]
    · simp [processMember, h]
  | sheet d =>
    by_cases h : isWorksheetFile name = true
    · simp [processMember, h]
    · simp [processMember, h]

theorem processMember_not_ws (markup : ℚ) (pc hr : Int) (m : String × ArchivePart)
    (h : isWorksheetFile m.1 = false) : processMember markup pc hr m = (m, 0) := by
  unfold processMember
  rw [if_neg (by simp [h])]

theorem processMember_malformed (markup : ℚ) (pc hr : Int) (name bytes : String) :
    processMember markup pc hr (name, ArchivePart.sheet (SheetDoc.malformed bytes)) =
      ((name, ArchivePart.sheet (SheetDoc.malformed bytes)), 0) := by
  by_cases h : isWorksheetFile name = true
  · simp [processMember, _update_sheet_prices, h]
  · simp [processMember, h]

theorem update_archive_eq (markup : ℚ) (pc hr : Int) (ms : List (String × ArchivePart))
    (h : hasWorksheetsDir ms = true) :
    update_prices_in_xlsx (XlsxFile.archive ms) markup pc hr =
      (XlsxFile.archive (ms.map (fun m => (processMember markup pc hr m).1)),
        (ms.map (fun m => (processMember markup pc hr m).2)).sum) := by
  unfold update_prices_in_xlsx
  dsimp only
  rw [if_pos h]
  simp only [mapCount_eq]

theorem update_archive_no_dir (markup : ℚ) (pc hr : Int) (ms : List (String × ArchivePart))
    (h : hasWorksheetsDir ms = false) :
    update_prices_in_xlsx (XlsxFile.archive ms) markup pc hr = (XlsxFile.archive ms, 0) := by
  unfold update_prices_in_xlsx
  dsimp only
  rw [if_neg (by simp [h])]

/-! ## Remaining helpers for the claims -/

theorem empty_append_str (s : String) : "" ++ s = s := by
  cases s with
  | mk l => rfl

theorem not_ws_of_no_dir (ms : List (String × ArchivePart)) (h : hasWorksheetsDir ms = false)
    (m : String × ArchivePart) (hm : m ∈ ms) : isWorksheetFile m.1 = false := by
  unfold hasWorksheetsDir at h
  rw [List.any_eq_false] at h
  cases hb : isWorksheetFile m.1 with
  | false => rfl
  | true =>
    exfalso
    unfold isWorksheetFile at hb
    simp only [Bool.and_eq_true] at hb
    exact absurd hb.1.1 (h m hm)

theorem filter_map_processMember (markup : ℚ) (pc hr : Int) (ms : List (String × ArchivePart)) :
    (ms.map (fun m => (processMember markup pc hr m).1)).filter (fun m => !(isWorksheetFile m.1)) =
      ms.filter (fun m => !(isWorksheetFile m.1)) := by
  induction ms with
  | nil => rfl
  | cons m ms ih =>
    rw [List.map_cons, List.filter_cons, List.filter_cons]
    have hname : isWorksheetFile (processMember markup pc hr m).1.1 = isWorksheetFile m.1 := by
      rw [processMember_fst_name]
    cases hb : isWorksheetFile m.1 with
    | true =>
      rw [hname, hb]
      rw [if_neg (by simp), if_neg (by simp)]
      exact ih
    | false =>
      have hstep : (processMember markup pc hr m).1 = m := by
        rw [processMember_not_ws markup pc hr m hb]
      rw [hname, hb, hstep]
      rw [if_pos (by simp), if_pos (by simp)]
      rw [ih]

/-! ## The claims -/

/-- Claim C1 as amended: in every rewrite call on a worksheet document, a cell
is rewritten — its value text replaced by the formatted `old + markup` and the
counter incremented — if and only if its type tag is absent or `"n"`, its
reference equals the target column letter followed by its row number, its row
number is strictly greater than the header row, and its value text is accepted
by Python `float()` — which also accepts the non-finite spellings
`inf`/`Infinity`/`nan` (any case, signed) and whitespace-padded or
underscore-grouped numerals, so "finite" is dropped from the original
condition (d); every cell failing one of these conditions is left unchanged
and contributes nothing to the count. -/
theorem c1_cell_rewrite_iff (markup : ℚ) (price_column header_row : Int)
    (rows : List Row) (rest : String) :
    _update_sheet_prices (SheetDoc.parsed rows rest) markup price_column header_row =
      (SheetDoc.parsed (rows.map (fun row => { row with cells := row.cells.map (fun c => if eligibleB (_column_number_to_letter price_column) header_row row.r c then rewriteValue markup c else c) })) rest,
        (rows.map (fun row => row.cells.countP (fun c => eligibleB (_column_number_to_letter price_column) header_row row.r c))).sum) :=
  update_sheet_parsed_eq markup price_column header_row rows rest

/-- Counterexample to C1 as stated: a target-column cell below the header
whose text is "Infinity" fails the claim's finite-parse condition (d) —
it parses to the non-finite value `inf` — yet the program rewrites it
(the text becomes "inf", a byte-level change) and increments the counter,
where the claim promises such a cell is left unchanged and uncounted. -/
theorem c1_counterexample :
    parsesFinite "Infinity" = false ∧ parseNum "Infinity" = some PyFloat.inf ∧
    processRow 50 (_column_number_to_letter 4) 5 (Row.mk 6 [Cell.mk (some "D6") none (some "Infinity") ""] "") =
      (Row.mk 6 [Cell.mk (some "D6") none (some "inf") ""] "", 1) := by
  refine ⟨by decide, by decide, by decide⟩

/-- Claim C2: for every archive and every rewrite request, every member other
than the worksheet documents is byte-identical between input and output (the
non-worksheet sublist is unchanged), and the list of member names — hence the
set of internal part names — is preserved by the extract/repack round trip. -/
theorem c2_non_worksheet_frame (markup : ℚ) (price_column header_row : Int)
    (ms : List (String × ArchivePart)) :
    (membersOf (update_prices_in_xlsx (XlsxFile.archive ms) markup price_column header_row).1).map Prod.fst = ms.map Prod.fst ∧
    (membersOf (update_prices_in_xlsx (XlsxFile.archive ms) markup price_column header_row).1).filter (fun m => !(isWorksheetFile m.1)) = ms.filter (fun m => !(isWorksheetFile m.1)) := by
  cases h : hasWorksheetsDir ms with
  | false =>
    rw [update_archive_no_dir markup price_column header_row ms h]
    exact ⟨rfl, rfl⟩
  | true =>
    rw [update_archive_eq markup price_column header_row ms h]
    constructor
    · show (ms.map (fun m => (processMember markup price_column header_row m).1)).map Prod.fst = _
      rw [List.map_map]
      exact List.map_congr_left (fun m _ => processMember_fst_name markup price_column header_row m)
    · exact filter_map_processMember markup price_column header_row ms

/-- Claim C4 as amended: the count returned by a rewrite call equals exactly
the number of cells, summed over all worksheet documents of the archive, that
lie in the target column below the header row with an absent-or-numeric type
tag and a value text accepted by Python `float()` — including the non-finite
`inf`/`nan` spellings and whitespace/underscore-grouped numerals, not only
texts denoting finite real numbers. -/
theorem c4_count_eq_eligible (markup : ℚ) (price_column header_row : Int)
    (ms : List (String × ArchivePart)) :
    (update_prices_in_xlsx (XlsxFile.archive ms) markup price_column header_row).2 =
      (ms.map (fun m => if isWorksheetFile m.1 then sheetEligibleCount price_column header_row m.2 else 0)).sum := by
  cases h : hasWorksheetsDir ms with
  | false =>
    rw [update_archive_no_dir markup price_column header_row ms h]
    symm
    rw [List.sum_eq_zero]
    intro x hx
    obtain ⟨m, hm, rfl⟩ := List.mem_map.mp hx
    rw [not_ws_of_no_dir ms h m hm]
    rfl
  | true =>
    rw [update_archive_eq markup price_column header_row ms h]
    show (ms.map (fun m => (processMember markup price_column header_row m).2)).sum = _
    congr 1
    refine List.map_congr_left ?_
    intro m _
    obtain ⟨name, p⟩ := m
    cases hb : isWorksheetFile name with
    | false =>
      rw [processMember_not_ws markup price_column header_row (name, p) hb]
      rw [if_neg (by simp [hb])]
    | true =>
      rw [if_pos (by simp [hb])]
      cases p with
      | blob b => simp [processMember, hb, sheetEligibleCount]
      | sheet d =>
        cases d with
        | malformed b => simp [processMember, _update_sheet_prices, hb, sheetEligibleCount]
        | noSheetData b => simp [processMember, _update_sheet_prices, hb, sheetEligibleCount]
        | parsed rows rest =>
          show (processMember markup price_column header_row (name, ArchivePart.sheet (SheetDoc.parsed rows rest))).2 = _
          unfold processMember
          rw [if_pos (by simp [hb])]
          show (_update_sheet_prices (SheetDoc.parsed rows rest) markup price_column header_row).2 = _
          rw [update_sheet_parsed_eq]
          rfl

/-- Counterexample to C4 as stated: an archive whose only worksheet holds a
single target-column cell with text "inf" returns count 1 — the program
counts every `float()`-accepted cell — while the number of cells whose
pre-existing value text parsed as a (finite) real number is 0. -/
theorem c4_counterexample :
    (update_prices_in_xlsx (XlsxFile.archive [("xl/worksheets/sheet1.xml", ArchivePart.sheet (SheetDoc.parsed [Row.mk 6 [Cell.mk (some "D6") none (some "inf") ""] ""] ""))]) 50 4 5).2 = 1 ∧
    ([("xl/worksheets/sheet1.xml", ArchivePart.sheet (SheetDoc.parsed [Row.mk 6 [Cell.mk (some "D6") none (some "inf") ""] ""] ""))].map (fun m => if isWorksheetFile m.1 then sheetFiniteCount 4 5 m.2 else 0)).sum = 0 := by
  refine ⟨by decide, by decide⟩

/-- Claim C5: an input that is not a valid archive yields a normal return with
count 0 and an output byte-identical to the input, and an archive with no
worksheet-parts directory likewise yields count 0 with the untouched initial
copy of the input as output. -/
theorem c5_degraded_fallback (bytes : String) (ms : List (String × ArchivePart))
    (markup : ℚ) (price_column header_row : Int) (h : hasWorksheetsDir ms = false) :
    update_prices_in_xlsx (XlsxFile.invalid bytes) markup price_column header_row = (XlsxFile.invalid bytes, 0) ∧
    update_prices_in_xlsx (XlsxFile.archive ms) markup price_column header_row = (XlsxFile.archive ms, 0) :=
  ⟨rfl, update_archive_no_dir markup price_column header_row ms h⟩

/-- Witness for C5 at a byte-corrupted file and an archive without the
worksheet-parts directory. -/
theorem c5_witness :
    hasWorksheetsDir [("docProps/app.xml", ArchivePart.blob "bin")] = false ∧
    update_prices_in_xlsx (XlsxFile.invalid "notzip") 50 4 5 = (XlsxFile.invalid "notzip", 0) ∧
    update_prices_in_xlsx (XlsxFile.archive [("docProps/app.xml", ArchivePart.blob "bin")]) 50 4 5 =
      (XlsxFile.archive [("docProps/app.xml", ArchivePart.blob "bin")], 0) :=
  ⟨by decide,
    (c5_degraded_fallback "notzip" [("docProps/app.xml", ArchivePart.blob "bin")] 50 4 5 (by decide)).1,
    (c5_degraded_fallback "notzip" [("docProps/app.xml", ArchivePart.blob "bin")] 50 4 5 (by decide)).2⟩

/-- Claim C6: a row at or above the header row is never modified (the whole
row is skipped with count 0), and in the row numbered exactly `header_row + 1`
every target-column cell with an absent-or-numeric type tag and parsing value
text is rewritten. -/
theorem c6_header_boundary (markup : ℚ) (price_column header_row : Int) (row : Row) :
    (row.r ≤ header_row →
      processRow markup (_column_number_to_letter price_column) header_row row = (row, 0)) ∧
    (row.r = header_row + 1 →
      (processRow markup (_column_number_to_letter price_column) header_row row).1.cells =
        row.cells.map (fun c => if (c.t == none || c.t == some "n") && (c.r == some (_column_number_to_letter price_column ++ toString row.r)) && (parseNum (c.v.getD "")).isSome then rewriteValue markup c else c)) := by
  constructor
  · intro h
    unfold processRow
    rw [if_pos h]
  · intro h
    rw [processRow_eq]
    show List.map _ row.cells = List.map _ row.cells
    refine List.map_congr_left ?_
    intro c _
    have he : eligibleB (_column_number_to_letter price_column) header_row row.r c =
        ((c.t == none || c.t == some "n") && (c.r == some (_column_number_to_letter price_column ++ toString row.r)) && (parseNum (c.v.getD "")).isSome) := by
      unfold eligibleB
      rw [show decide (header_row < row.r) = true from by simp only [decide_eq_true_eq]; omega,
        Bool.and_true]
    rw [he]

/-- Witness for C6: a header-row row is untouched, and the row right below the
header has its target-column numeric cell rewritten. -/
theorem c6_witness :
    processRow 50 (_column_number_to_letter 4) 5 (Row.mk 5 [Cell.mk (some "D5") none (some "100") ""] "") =
      (Row.mk 5 [Cell.mk (some "D5") none (some "100") ""] "", 0) ∧
    (processRow 50 (_column_number_to_letter 4) 5 (Row.mk 6 [Cell.mk (some "D6") none (some "100") ""] "")).1.cells =
      [Cell.mk (some "D6") none (some "100") ""].map (fun c => if (c.t == none || c.t == some "n") && (c.r == some (_column_number_to_letter 4 ++ toString (Row.mk 6 [Cell.mk (some "D6") none (some "100") ""] "").r)) && (parseNum (c.v.getD "")).isSome then rewriteValue 50 c else c) :=
  ⟨(c6_header_boundary 50 4 5 (Row.mk 5 [Cell.mk (some "D5") none (some "100") ""] "")).1 (by decide),
    (c6_header_boundary 50 4 5 (Row.mk 6 [Cell.mk (some "D6") none (some "100") ""] "")).2 (by decide)⟩

/-- Claim C7: the column-number-to-letter conversion is the conventional
spreadsheet bijection: composing with the spec's reference inverse is the
identity on 1..18278, and the spot values 1, 26, 27, 52, 702, 703 map to
"A", "Z", "AA", "AZ", "ZZ", "AAA". -/
theorem c7_column_bijection :
    (∀ n : ℕ, 0 < n → n ≤ 18278 → letterToNumber (_column_number_to_letter (n : Int)) = n) ∧
    _column_number_to_letter 1 = "A" ∧ _column_number_to_letter 26 = "Z" ∧
    _column_number_to_letter 27 = "AA" ∧ _column_number_to_letter 52 = "AZ" ∧
    _column_number_to_letter 702 = "ZZ" ∧ _column_number_to_letter 703 = "AAA" := by
  refine ⟨fun n _ _ => letter_roundtrip n, ?_, ?_, ?_, ?_, ?_, ?_⟩
  · decide
  · decide
  · decide
  · decide
  · decide
  · decide

/-- Witness for C7 at column 4 (the default price column). -/
theorem c7_witness :
    0 < 4 ∧ 4 ≤ 18278 ∧ letterToNumber (_column_number_to_letter ((4 : ℕ) : Int)) = 4 :=
  ⟨by decide, by decide, c7_column_bijection.1 4 (by decide) (by decide)⟩

/-- Claim C9: a failure of one worksheet document is contained to it — the
per-sheet handler returns it unchanged with count 0 — while the archive is
still fully repacked with every member processed independently, the call
returning the sum of the per-member counts. -/
theorem c9_per_sheet_containment (markup : ℚ) (price_column header_row : Int)
    (ms : List (String × ArchivePart)) (h : hasWorksheetsDir ms = true) :
    (∀ name bytes, processMember markup price_column header_row (name, ArchivePart.sheet (SheetDoc.malformed bytes)) = ((name, ArchivePart.sheet (SheetDoc.malformed bytes)), 0)) ∧
    update_prices_in_xlsx (XlsxFile.archive ms) markup price_column header_row =
      (XlsxFile.archive (ms.map (fun m => (processMember markup price_column header_row m).1)),
        (ms.map (fun m => (processMember markup price_column header_row m).2)).sum) :=
  ⟨fun name bytes => processMember_malformed markup price_column header_row name bytes,
    update_archive_eq markup price_column header_row ms h⟩

/-- Witness for C9 at an archive holding one malformed worksheet. -/
theorem c9_witness :
    hasWorksheetsDir [("xl/worksheets/sheet1.xml", ArchivePart.sheet (SheetDoc.malformed "junk"))] = true ∧
    processMember 50 4 5 ("xl/worksheets/sheet1.xml", ArchivePart.sheet (SheetDoc.malformed "junk")) =
      (("xl/worksheets/sheet1.xml", ArchivePart.sheet (SheetDoc.malformed "junk")), 0) :=
  ⟨by decide,
    (c9_per_sheet_containment 50 4 5 [("xl/worksheets/sheet1.xml", ArchivePart.sheet (SheetDoc.malformed "junk"))] (by decide)).1 "xl/worksheets/sheet1.xml" "junk"⟩

/-- Claim C10: the column conversion is total on non-positive inputs — the
while loop never runs, the empty string is returned, and the cell reference
built by the rewriter is the bare row number. -/
theorem c10_nonpositive_column (n : Int) (h : n ≤ 0) :
    _column_number_to_letter n = "" ∧
    ∀ rr : Int, _column_number_to_letter n ++ toString rr = toString rr := by
  refine ⟨colLetter_nonpos n h, ?_⟩
  intro rr
  rw [colLetter_nonpos n h, empty_append_str]

/-- Witness for C10 at column -3 and row 7. -/
theorem c10_witness :
    (-3 : Int) ≤ 0 ∧ _column_number_to_letter (-3) = "" ∧
    _column_number_to_letter (-3) ++ toString (7 : Int) = toString (7 : Int) :=
  ⟨by decide, (c10_nonpositive_column (-3) (by decide)).1,
    (c10_nonpositive_column (-3) (by decide)).2 7⟩

/-- Counterexample to C3 as stated: on an archive whose first worksheet is
malformed but whose second worksheet holds an eligible numeric cell, the
rewrite call does NOT fall back to a byte-identical copy of the input — the
malformed sheet is handled per-sheet, the other sheet is still rewritten, and
the call returns count 1. -/
theorem c3_counterexample :
    (update_prices_in_xlsx (XlsxFile.archive [("xl/worksheets/sheet1.xml", ArchivePart.sheet (SheetDoc.malformed "<bad")), ("xl/worksheets/sheet2.xml", ArchivePart.sheet (SheetDoc.parsed [Row.mk 6 [Cell.mk (some "D6") none (some "100") ""] ""] "tail"))]) 50 4 5).2 = 1 ∧
    (update_prices_in_xlsx (XlsxFile.archive [("xl/worksheets/sheet1.xml", ArchivePart.sheet (SheetDoc.malformed "<bad")), ("xl/worksheets/sheet2.xml", ArchivePart.sheet (SheetDoc.parsed [Row.mk 6 [Cell.mk (some "D6") none (some "100") ""] ""] "tail"))]) 50 4 5).1 ≠
      XlsxFile.archive [("xl/worksheets/sheet1.xml", ArchivePart.sheet (SheetDoc.malformed "<bad")), ("xl/worksheets/sheet2.xml", ArchivePart.sheet (SheetDoc.parsed [Row.mk 6 [Cell.mk (some "D6") none (some "100") ""] ""] "tail"))] := by
  constructor
  · decide
  · have h1 : (update_prices_in_xlsx (XlsxFile.archive [("xl/worksheets/sheet1.xml", ArchivePart.sheet (SheetDoc.malformed "<bad")), ("xl/worksheets/sheet2.xml", ArchivePart.sheet (SheetDoc.parsed [Row.mk 6 [Cell.mk (some "D6") none (some "100") ""] ""] "tail"))]) 50 4 5).1 =
        XlsxFile.archive [("xl/worksheets/sheet1.xml", ArchivePart.sheet (SheetDoc.malformed "<bad")), ("xl/worksheets/sheet2.xml", ArchivePart.sheet (SheetDoc.parsed [Row.mk 6 [Cell.mk (some "D6") none (some (formatNum (PyFloat.finite ((100 : ℚ) + 50)))) ""] ""] "tail"))] := rfl
    rw [h1]
    intro heq
    simp only [XlsxFile.archive.injEq, List.cons.injEq, Prod.mk.injEq, ArchivePart.sheet.injEq,
      SheetDoc.parsed.injEq, Row.mk.injEq, Cell.mk.injEq, Option.some.injEq, and_true,
      true_and] at heq
    have hv : formatNum (PyFloat.finite ((100 : ℚ) + 50)) = "100" := heq
    have h2 := congrArg parseNum hv
    have hdec : DecQ ((100 : ℚ) + 50) :=
      DecQ_add _ _ ⟨100, 0, by norm_num⟩ ⟨50, 0, by norm_num⟩
    rw [formatNum_parse _ hdec] at h2
    have h3 : parseNum "100" = some (PyFloat.finite 100) := by decide
    rw [h3] at h2
    have h4 := Option.some.inj h2
    have h5 : (100 : ℚ) + 50 = 100 := by injection h4
    linarith

/-- Claim C3 as amended: when a worksheet document is malformed, the failure is
contained to that sheet — the malformed member survives byte-identical in the
repacked output while the archive is still fully repacked with every member
name preserved; the output is the repacked archive, not a byte-identical copy
of the whole input. -/
theorem c3_amended_containment (markup : ℚ) (price_column header_row : Int)
    (ms : List (String × ArchivePart)) (name bytes : String)
    (hmem : (name, ArchivePart.sheet (SheetDoc.malformed bytes)) ∈ ms)
    (h : hasWorksheetsDir ms = true) :
    (name, ArchivePart.sheet (SheetDoc.malformed bytes)) ∈
      membersOf (update_prices_in_xlsx (XlsxFile.archive ms) markup price_column header_row).1 ∧
    (membersOf (update_prices_in_xlsx (XlsxFile.archive ms) markup price_column header_row).1).map Prod.fst = ms.map Prod.fst := by
  rw [update_archive_eq markup price_column header_row ms h]
  constructor
  · show _ ∈ ms.map (fun m => (processMember markup price_column header_row m).1)
    have hmm := List.mem_map_of_mem (fun m => (processMember markup price_column header_row m).1) hmem
    simp only [processMember_malformed markup price_column header_row name bytes] at hmm
    exact hmm
  · show (ms.map (fun m => (processMember markup price_column header_row m).1)).map Prod.fst = _
    rw [List.map_map]
    exact List.map_congr_left (fun m _ => processMember_fst_name markup price_column header_row m)

/-- Witness for the amended C3 at a two-member archive with one malformed
worksheet. -/
theorem c3_amended_witness :
    ("xl/worksheets/sheet1.xml", ArchivePart.sheet (SheetDoc.malformed "zzz")) ∈
      membersOf (update_prices_in_xlsx (XlsxFile.archive [("xl/worksheets/sheet1.xml", ArchivePart.sheet (SheetDoc.malformed "zzz")), ("docProps/app.xml", ArchivePart.blob "b")]) 7 4 5).1 ∧
    (membersOf (update_prices_in_xlsx (XlsxFile.archive [("xl/worksheets/sheet1.xml", ArchivePart.sheet (SheetDoc.malformed "zzz")), ("docProps/app.xml", ArchivePart.blob "b")]) 7 4 5).1).map Prod.fst =
      [("xl/worksheets/sheet1.xml", ArchivePart.sheet (SheetDoc.malformed "zzz")), ("docProps/app.xml", ArchivePart.blob "b")].map Prod.fst :=
  c3_amended_containment 7 4 5
    [("xl/worksheets/sheet1.xml", ArchivePart.sheet (SheetDoc.malformed "zzz")), ("docProps/app.xml", ArchivePart.blob "b")]
    "xl/worksheets/sheet1.xml" "zzz" (by decide) (by decide)

end Xlsx
